import Mathlib

/-!
Verification of the sailfish SRHD solver core.

The physics kernels (`src/sailfish/lib_srhd.py`, C device code embedded in
docstrings) are modelled over the real numbers: every arithmetic expression
is transcribed from the source, with `double` mapped to `ℝ`, `sqrt` to
`Real.sqrt`, `fabs` to `|·|`, and the C ternary-`min2`/`max2` macros to
`min`/`max` on `ℝ`.  The kernels are dimension-generic over `NVECS ∈ {1,2,3}`
momentum components; we embed the `NVECS == 3` instantiation, which subsumes
the lower-dimensional ones (their formulas are the same with the extra
components set to zero, exactly as the C preprocessor produces them).
`GAMMA_LAW_INDEX` is kept as a parameter `gm` (the source allows overriding
the default 5/3 by a macro).

The solver driver (`src/sailfish/solvers/srhd_2d.py`) is modelled separately:
the boundary exchange as explicit state passing over per-patch buffers, and
the Runge-Kutta driver as an event trace.
-/

namespace Sailfish

/-- Primitive state for `NPRIM = 5`: mass density `RHO`, the three spatial
four-velocity components `UXX UYY UZZ`, and pressure `PRE`. -/
@[ext]
structure Prim where
  rho : ℝ
  ux : ℝ
  uy : ℝ
  uz : ℝ
  pre : ℝ

/-- Conserved state for `NCONS = 5`: lab-frame mass density `DEN`, momentum
components `SXX SYY SZZ`, and energy `NRG` (same layout as the source's
index macros). -/
@[ext]
structure Cons where
  den : ℝ
  sx : ℝ
  sy : ℝ
  sz : ℝ
  nrg : ℝ

noncomputable section

/-- `prim_to_cons` from `lib_srhd.py` (`NVECS == 3` branch): closed-form
primitive-to-conserved map. -/
def prim_to_cons (gm : ℝ) (p : Prim) : Cons :=
  let rho := p.rho
  let gbx := p.ux
  let gby := p.uy
  let gbz := p.uz
  let pre := p.pre
  let w := Real.sqrt (1 + gbx * gbx + gby * gby + gbz * gbz)
  let h := 1 + pre / rho * (1 + 1 / (gm - 1))
  let m := rho * w
  ⟨m, m * h * gbx, m * h * gby, m * h * gbz, m * (h * w - 1) - pre⟩

/-- `error_tolerance` in `cons_to_prim` (`1e-12`). -/
def errorTolerance : ℝ := 1 / 10 ^ 12

/-- Values produced by one pass of the `while (1)` Newton loop body of
`cons_to_prim`: the residual `f` checked for convergence, the Lorentz
factor `w` computed in that pass, and the updated pressure
(`pre -= f / g`). -/
structure C2PStep where
  f : ℝ
  w : ℝ
  preNext : ℝ

/-- One pass of the Newton loop body of `cons_to_prim`, transcribed from the
source: `et = tau + pre + m`, `b2 = min2(ss/et/et, 1.0 - 1e-10)`,
`w2 = 1/(1-b2)`, `w = sqrt(w2)`, `e = (tau + m(1-w) + pre(1-w2))/(m w)`,
`rho = m/w`, `h = 1+e+pre/rho`, `a2 = gm pre/(rho h)`,
`f = rho e (gm-1) - pre`, `g = b2 a2 - 1`, `pre -= f/g`. -/
def c2pPass (gm : ℝ) (u : Cons) (pre : ℝ) : C2PStep :=
  let m := u.den
  let tau := u.nrg
  let ss := u.sx * u.sx + u.sy * u.sy + u.sz * u.sz
  let et := tau + pre + m
  let b2 := min (ss / et / et) (1 - 1 / 10 ^ 10)
  let w2 := 1 / (1 - b2)
  let w := Real.sqrt w2
  let e := (tau + m * (1 - w) + pre * (1 - w2)) / (m * w)
  let rho := m / w
  let h := 1 + e + pre / rho
  let a2 := gm * pre / (rho * h)
  let f := rho * e * (gm - 1) - pre
  let g := b2 * a2 - 1
  ⟨f, w, pre - f / g⟩

/-- The primitive state written after the loop breaks with converged pressure
`pre` and Lorentz factor `w0`: `p[RHO] = m/w0`, `p[PRE] = pre`,
`p[U__] = w0 * u[_] / (tau + m + pre)`. -/
def c2pFinish (u : Cons) (pre w0 : ℝ) : Prim :=
  let m := u.den
  let tau := u.nrg
  ⟨m / w0,
   w0 * u.sx / (tau + m + pre),
   w0 * u.sy / (tau + m + pre),
   w0 * u.sz / (tau + m + pre),
   pre⟩

/-- The Newton loop of `cons_to_prim`.  `iteration` is the source's loop
counter (the loop calls `exit(1)` on the pass where `iteration ==
newton_iter_max = 50` fails the residual test); `fuel` is a structural
recursion bound.  Result: `none` = fuel exhausted (an artifact of the
embedding, proved unreachable from fuel 51); `some none` = the `exit(1)`
abort; `some (some p)` = converged with recovered primitives `p`. -/
def c2pLoop (gm : ℝ) (u : Cons) : ℕ → ℕ → ℝ → Option (Option Prim)
  | 0, _, _ => none
  | fuel + 1, iteration, pre =>
    let s := c2pPass gm u pre
    if |s.f| < errorTolerance then some (some (c2pFinish u s.preNext s.w))
    else if iteration = 50 then some none
    else c2pLoop gm u fuel (iteration + 1) s.preNext

/-- `cons_to_prim` from `lib_srhd.py`: Newton iteration on pressure, started
from the initial guess `pre0` (the source reads it from the output buffer:
`double pre = p[PRE];`).  Fuel 51 covers the passes at `iteration = 0..50`. -/
def cons_to_prim (gm : ℝ) (u : Cons) (pre0 : ℝ) : Option (Option Prim) :=
  c2pLoop gm u 51 0 pre0

/-- `cons_to_prim_check` from `lib_srhd.py`: runs `cons_to_prim(u, p)` and
then returns a status code — `1` if `u[DEN] < 0`, else `2` if `u[NRG] < 0`,
else `3` if `p[PRE] < 0`, else `0`.  The `exit(1)` abort inside
`cons_to_prim` propagates. -/
def cons_to_prim_check (gm : ℝ) (u : Cons) (pre0 : ℝ) :
    Option (Option (Prim × ℤ)) :=
  match cons_to_prim gm u pre0 with
  | none => none
  | some none => some none
  | some (some p) =>
      some (some (p,
        if u.den < 0 then 1
        else if u.nrg < 0 then 2
        else if p.pre < 0 then 3
        else 0))

/-- The pressure iterates of the Newton loop of `cons_to_prim`: `c2pPre k`
is the pressure at the start of pass `k`, and each pass applies the update
`pre -= f / g`. -/
def c2pPre (gm : ℝ) (u : Cons) (pre0 : ℝ) : ℕ → ℝ
  | 0 => pre0
  | k + 1 => (c2pPass gm u (c2pPre gm u pre0 k)).preNext

/-- The residual `f` evaluated on pass `k` of the Newton loop. -/
def c2pResid (gm : ℝ) (u : Cons) (pre0 : ℝ) (k : ℕ) : ℝ :=
  (c2pPass gm u (c2pPre gm u pre0 k)).f

/-- The convergence criterion of `cons_to_prim`: some pass `k` among the
passes the loop can execute (`iteration = 0..50`) meets the absolute
residual tolerance `|f| < 1e-12`. -/
def c2pConverges (gm : ℝ) (u : Cons) (pre0 : ℝ) : Prop :=
  ∃ k, k ≤ 50 ∧ |c2pResid gm u pre0 k| < errorTolerance

open Classical in
/-- The spec-side description of `cons_to_prim`'s contract: if the residual
tolerance is met within the iteration budget, the recovered primitives of
the *first* such pass are returned (pressure after that pass's update,
Lorentz factor of that pass); otherwise the run is aborted (`none`,
the `exit(1)` path). -/
noncomputable def c2pSpec (gm : ℝ) (u : Cons) (pre0 : ℝ) : Option Prim :=
  if h : c2pConverges gm u pre0 then
    some (c2pFinish u (c2pPre gm u pre0 (Nat.find h + 1))
      (c2pPass gm u (c2pPre gm u pre0 (Nat.find h))).w)
  else none

/-- `prim_and_cons_to_flux` from `lib_srhd.py`: analytic flux of a state
given both its primitive and conserved representation; the `switch
(direction)` selecting the normal velocity is transcribed as an if-chain
(any direction outside `{1,2,3}` leaves `vn = 0.0`, as in C). -/
def prim_and_cons_to_flux (p : Prim) (u : Cons) (direction : ℕ) : Cons :=
  let gbx := p.ux
  let gby := p.uy
  let gbz := p.uz
  let uu := gbx * gbx + gby * gby + gbz * gbz
  let pre := p.pre
  let w := Real.sqrt (1 + uu)
  let vn := if direction = 1 then gbx / w
            else if direction = 2 then gby / w
            else if direction = 3 then gbz / w
            else 0
  ⟨vn * u.den,
   vn * u.sx + pre * (if direction = 1 then 1 else 0),
   vn * u.sy + pre * (if direction = 2 then 1 else 0),
   vn * u.sz + pre * (if direction = 3 then 1 else 0),
   vn * u.nrg + pre * vn⟩

/-- `sound_speed_squared` from `lib_srhd.py`:
`rhoh = rho + pre * (1 + 1/(Γ-1))`, result `pre / rhoh * Γ`
(the source reads the density through index `DEN = 0`, which on a primitive
array is the `RHO` slot). -/
def sound_speed_squared (gm : ℝ) (p : Prim) : ℝ :=
  let rho := p.rho
  let pre := p.pre
  let rhoh := rho + pre * (1 + 1 / (gm - 1))
  pre / rhoh * gm

/-- `outer_wavespeeds` from `lib_srhd.py`: the two characteristic speeds of
the relativistic Euler system along `direction`, written into
`wavespeeds[0] ≤ wavespeeds[1]`; returned here as a pair. -/
def outer_wavespeeds (gm : ℝ) (p : Prim) (direction : ℕ) : ℝ × ℝ :=
  let gbx := p.ux
  let gby := p.uy
  let gbz := p.uz
  let uu := gbx * gbx + gby * gby + gbz * gbz
  let w := Real.sqrt (1 + uu)
  let a2 := sound_speed_squared gm p
  let vn := if direction = 1 then gbx / w
            else if direction = 2 then gby / w
            else if direction = 3 then gbz / w
            else 0
  let vv := uu / (1 + uu)
  let v2 := vn * vn
  let k0 := Real.sqrt (a2 * (1 - vv) * (1 - vv * a2 - v2 * (1 - a2)))
  ((vn * (1 - a2) - k0) / (1 - vv * a2),
   (vn * (1 - a2) + k0) / (1 - vv * a2))

/-- `riemann_hlle` from `lib_srhd.py`: two-wave HLLE approximate Riemann
solver.  `am = min3(0.0, al[0], ar[0])`, `ap = max3(0.0, al[1], ar[1])`,
and per component `flux[q] = (fl[q] ap - fr[q] am - (ul[q]-ur[q]) ap am)
/ (ap - am)`. -/
def riemann_hlle (gm : ℝ) (pl pr : Prim) (direction : ℕ) : Cons :=
  let ul := prim_to_cons gm pl
  let ur := prim_to_cons gm pr
  let fl := prim_and_cons_to_flux pl ul direction
  let fr := prim_and_cons_to_flux pr ur direction
  let al := outer_wavespeeds gm pl direction
  let ar := outer_wavespeeds gm pr direction
  let am := min 0 (min al.1 ar.1)
  let ap := max 0 (max al.2 ar.2)
  ⟨(fl.den * ap - fr.den * am - (ul.den - ur.den) * ap * am) / (ap - am),
   (fl.sx * ap - fr.sx * am - (ul.sx - ur.sx) * ap * am) / (ap - am),
   (fl.sy * ap - fr.sy * am - (ul.sy - ur.sy) * ap * am) / (ap - am),
   (fl.sz * ap - fr.sz * am - (ul.sz - ur.sz) * ap * am) / (ap - am),
   (fl.nrg * ap - fr.nrg * am - (ul.nrg - ur.nrg) * ap * am) / (ap - am)⟩

/-- The per-patch quantity `Patch.maximum_wavespeed` from `srhd_2d.py`.
Modelled from the spec: the `srhd_2d_max_wavespeeds` kernel it launches
lives in `srhd_2d.c`, which is not among the sources; per the spec the
property "forces a primitive recompute, launches the wavespeed kernel,
returns the patch-wide maximum", so we carry each patch's patch-wide
maximum as given data. -/
structure SolverWavespeedState where
  patchMaxWavespeeds : List ℝ

/-- `Solver.maximum_wavespeed` from `srhd_2d.py`, transcribed from the
source: the method body is `return 1.0` — the aggregation
`max(patch.maximum_wavespeed for patch in self.patches)` is present in the
source only as a commented-out line. -/
def solver_maximum_wavespeed (_s : SolverWavespeedState) : ℝ := 1.0

/-- The aggregation the spec describes (and the source comments out):
the maximum of `Patch.maximum_wavespeed` over all patches. -/
def solver_patch_aggregate_wavespeed (s : SolverWavespeedState) : ℝ :=
  s.patchMaxWavespeeds.foldr max 0

/-- A concrete physical primitive state (the one exercised by the module's
`__main__` round-trip test, `p = [1.0, 2.0, 5.0, 1.0, 0.01]`), used to
witness the physics-kernel claims. -/
def primW : Prim := ⟨1, 2, 5, 1, 1 / 100⟩

end

/-! ## Boundary exchange (`Solver.set_bc` / `Solver.set_bc_patch`)

One patch's buffer along the radial axis is modelled as an interior width
`w` plus a total cell-indexed map (index `i < w + 2*ng`; a cell is one
whole `(nj, nq)` row, abstracted as a value of an arbitrary type `α`).
`set_bc` mutates the patches in place, in patch order, which is modelled
as a left fold over the patch indices. -/

/-- `ng = self.num_guard = 2` in `srhd_2d.py`. -/
def ng : ℕ := 2

/-- One patch's buffer for the exchange: interior width `w` (the buffer has
`w + 2*ng` cells) and the cell contents. -/
@[ext]
structure PatchBuf (α : Type) where
  w : ℕ
  data : ℕ → α

/-- `Solver.set_bc_patch(pl, pc, pr, patch_index)` from `srhd_2d.py`:
step 1 writes the internal BC, `pc[:+ng] = pl[-2*ng:-ng]` (cells
`pl[pl.w + i]` for `i < ng`) and `pc[-ng:] = pr[+ng:+2*ng]`; step 2 then
overwrites the guard cells of the patch at index 0 with `pc[ng]` and of the
patch at the last index with `pc[-ng-1]` (outflow/zero-gradient
replication).  The steps are applied in source order to the same buffer. -/
def set_bc_patch {α : Type} (pl pc pr : PatchBuf α)
    (patchIndex lastIndex : ℕ) : PatchBuf α :=
  let s1 : ℕ → α := fun i =>
    if i < ng then pl.data (pl.w + i)
    else if pc.w + ng ≤ i ∧ i < pc.w + 2 * ng then pr.data (i - pc.w)
    else pc.data i
  let s2 : ℕ → α :=
    if patchIndex = 0 then fun i => if i < ng then s1 ng else s1 i
    else s1
  let s3 : ℕ → α :=
    if patchIndex = lastIndex then
      fun i => if pc.w + ng ≤ i ∧ i < pc.w + 2 * ng then s2 (pc.w + ng - 1)
               else s2 i
    else s2
  ⟨pc.w, s3⟩

/-- One iteration of the `for i0 in range(num_patches)` loop in
`Solver.set_bc`: neighbor indices `il = (i0 + n - 1) % n` and
`ir = (i0 + n + 1) % n` are taken from the *current* (partially updated)
patch list, and patch `i0` is replaced. -/
def set_bc_step {α : Type} {n : ℕ} (st : Fin n → PatchBuf α) (i0 : Fin n) :
    Fin n → PatchBuf α :=
  let il : Fin n := ⟨(i0.1 + n - 1) % n, Nat.mod_lt _ i0.pos⟩
  let ir : Fin n := ⟨(i0.1 + n + 1) % n, Nat.mod_lt _ i0.pos⟩
  Function.update st i0 (set_bc_patch (st il) (st i0) (st ir) i0.1 (n - 1))

/-- `Solver.set_bc` from `srhd_2d.py`: the in-order, in-place loop over all
patches. -/
def set_bc {α : Type} (n : ℕ) (st : Fin n → PatchBuf α) : Fin n → PatchBuf α :=
  (List.finRange n).foldl set_bc_step st

/-- The order-independent description of the exchange: every patch computed
from the *original* neighbor buffers.  `set_bc` coincides with it whenever
every interior is at least `ng` wide (lemma `set_bc_eq_par`), because the
exchange reads only interior cells and writes only guard cells. -/
def set_bc_par {α : Type} (n : ℕ) (st : Fin n → PatchBuf α) :
    Fin n → PatchBuf α :=
  fun k =>
    set_bc_patch (st ⟨(k.1 + n - 1) % n, Nat.mod_lt _ k.pos⟩) (st k)
      (st ⟨(k.1 + n + 1) % n, Nat.mod_lt _ k.pos⟩) k.1 (n - 1)

/-- A concrete two-patch state (interior width 2, `ng ≤ w`) used to witness
the boundary-exchange claims. -/
def stW : Fin 2 → PatchBuf ℕ := fun k => ⟨2, fun i => 10 * (k.1 + 1) + i⟩

/-! ## Runge-Kutta driver (`Solver.advance`)

`Solver.advance` and its callees touch device buffers only through
`Patch` methods and `set_bc`; the schedule/ordering claims are about which
of those operations run and in what order, so the driver is embedded as an
event-trace semantics: each patch-level operation appends one event. -/

/-- Observable solver operations, in the order `Solver.advance` issues
them. -/
inductive SolverEvent where
  | newIteration (patch : ℕ)
  | recomputePrimitive (patch : ℕ)
  | setBC
  | advanceRK (patch : ℕ) (rkParam : ℚ)
  deriving DecidableEq, Repr

/-- `bs_rk1 = [0 / 1]` in `Solver.advance`. -/
def bs_rk1 : List ℚ := [0 / 1]

/-- `bs_rk2 = [0 / 1, 1 / 2]` in `Solver.advance`. -/
def bs_rk2 : List ℚ := [0 / 1, 1 / 2]

/-- `bs_rk3 = [0 / 1, 3 / 4, 1 / 3]` in `Solver.advance`. -/
def bs_rk3 : List ℚ := [0 / 1, 3 / 4, 1 / 3]

/-- `Solver.new_iteration`: `patch.new_iteration()` on every patch in
order. -/
def solver_new_iteration_trace (n : ℕ) : List SolverEvent :=
  (List.range n).map SolverEvent.newIteration

/-- `Solver.advance_rk(rk_param, dt)`: recompute primitives on every patch,
then `set_bc("primitive1")`, then `patch.advance_rk(rk_param, dt)` on every
patch. -/
def solver_advance_rk_trace (n : ℕ) (rkParam : ℚ) : List SolverEvent :=
  (List.range n).map SolverEvent.recomputePrimitive
    ++ [SolverEvent.setBC]
    ++ (List.range n).map (fun k => SolverEvent.advanceRK k rkParam)

/-- `Solver.advance(dt)` from `srhd_2d.py`: `self.new_iteration()`, then
`for b in bs_rk2: self.advance_rk(b, dt)` — the loop iterates over
`bs_rk2` unconditionally (`bs_rk1` and `bs_rk3` are defined in the method
body but not used). -/
def solver_advance_trace (n : ℕ) : List SolverEvent :=
  solver_new_iteration_trace n
    ++ (bs_rk2.map (solver_advance_rk_trace n)).flatten

/-- The stage weights a trace actually executes: the `rk_param` of each
`advance_rk` launch on patch 0, in order. -/
def traceStageWeights (tr : List SolverEvent) : List ℚ :=
  tr.filterMap (fun e =>
    match e with
    | SolverEvent.advanceRK 0 b => some b
    | _ => none)

/-- The boundary-condition acceptance check in `Solver.__init__` from
`srhd_2d.py`: `if setup.boundary_condition != "outflow": raise
ValueError(...)`. -/
def solver_init_boundary_check (boundary_condition : String) :
    Except String Unit :=
  if boundary_condition ≠ "outflow" then
    Except.error "srhd_2d solver only supports outflow radial boundaries"
  else Except.ok ()

theorem set_bc_patch_w {α : Type} (pl pc pr : PatchBuf α) (pi li : ℕ) :
    (set_bc_patch pl pc pr pi li).w = pc.w := rfl

/-- Pointwise description of `set_bc_patch` (for a patch with at least one
interior cell): edge replication wins on the edge patches' guard cells,
otherwise guards come from the neighbors' interiors, and all other cells
are untouched. -/
theorem set_bc_patch_data {α : Type} (pl pc pr : PatchBuf α) (pi li : ℕ)
    (hw : 1 ≤ pc.w) (i : ℕ) :
    (set_bc_patch pl pc pr pi li).data i =
      if pi = li ∧ pc.w + ng ≤ i ∧ i < pc.w + 2 * ng then
        pc.data (pc.w + ng - 1)
      else if pi = 0 ∧ i < ng then pc.data ng
      else if i < ng then pl.data (pl.w + i)
      else if pc.w + ng ≤ i ∧ i < pc.w + 2 * ng then pr.data (i - pc.w)
      else pc.data i := by
  have hng : ng = 2 := rfl
  simp only [set_bc_patch]
  split_ifs <;> beta_reduce <;> split_ifs <;> first | rfl | omega

/-- The exchange writes only a patch's guard cells: every cell outside the
two guard bands keeps its value. -/
theorem set_bc_patch_offguard {α : Type} (pl pc pr : PatchBuf α) (pi li : ℕ)
    (hw : 1 ≤ pc.w) (i : ℕ)
    (hi : (ng ≤ i ∧ i < pc.w + ng) ∨ pc.w + 2 * ng ≤ i) :
    (set_bc_patch pl pc pr pi li).data i = pc.data i := by
  rw [set_bc_patch_data pl pc pr pi li hw i]
  split_ifs <;> first | rfl | omega

/-- The exchange reads its neighbors only on the cells it copies: the `ng`
interior-tail cells of the left neighbor and the `ng` interior-head cells
of the right neighbor (and reads the central patch only off its guards).
Replacing the arguments by buffers agreeing there gives the same result. -/
theorem set_bc_patch_congr {α : Type} (pl pl' pc pc' pr pr' : PatchBuf α)
    (pi li : ℕ) (hw : 1 ≤ pc.w)
    (hplw : pl'.w = pl.w) (hpcw : pc'.w = pc.w)
    (hpl : ∀ j, pl.w ≤ j → j < pl.w + ng → pl'.data j = pl.data j)
    (hpc : ∀ j, (ng ≤ j ∧ j < pc.w + ng) ∨ pc.w + 2 * ng ≤ j →
      pc'.data j = pc.data j)
    (hpr : ∀ j, ng ≤ j → j < 2 * ng → pr'.data j = pr.data j) :
    set_bc_patch pl' pc' pr' pi li = set_bc_patch pl pc pr pi li := by
  have hng : ng = 2 := rfl
  have hw' : 1 ≤ pc'.w := hpcw ▸ hw
  ext i
  · exact hpcw
  rw [set_bc_patch_data pl' pc' pr' pi li hw' i,
    set_bc_patch_data pl pc pr pi li hw i, hpcw, hplw]
  split_ifs <;> first
    | (apply hpc; omega)
    | (apply hpl <;> omega)
    | (apply hpr <;> omega)

/-- The sequential in-place exchange loop equals the order-independent
description: starting from a partially processed state that agrees with
`st` on the unprocessed indices and with `set_bc_par n st` on the processed
ones, folding over the remaining (distinct) indices lands on
`set_bc_par n st`.  Requires every interior to be at least `ng` wide, so
that all reads are of cells the exchange never writes. -/
theorem set_bc_foldl_eq_par {α : Type} {n : ℕ} (st : Fin n → PatchBuf α)
    (hw : ∀ k, ng ≤ (st k).w) :
    ∀ (L : List (Fin n)) (st' : Fin n → PatchBuf α), L.Nodup →
      (∀ k, k ∈ L → st' k = st k) →
      (∀ k, k ∉ L → st' k = set_bc_par n st k) →
      L.foldl set_bc_step st' = set_bc_par n st := by
  have hng : ng = 2 := rfl
  intro L
  induction L with
  | nil =>
    intro st' _ _ h2
    funext k
    exact h2 k (List.not_mem_nil k)
  | cons i0 L ih =>
    intro st' hnd h1 h2
    obtain ⟨hi0, hndL⟩ := List.nodup_cons.mp hnd
    have hw1 : ∀ k, 1 ≤ (st k).w := fun k => le_trans (by omega) (hw k)
    -- agreement of the current state with the original, off the guards
    have hagree : ∀ k, (st' k).w = (st k).w ∧
        ∀ j, (ng ≤ j ∧ j < (st k).w + ng) ∨ (st k).w + 2 * ng ≤ j →
          (st' k).data j = (st k).data j := by
      intro k
      by_cases hk : k ∈ i0 :: L
      · rw [h1 k hk]; exact ⟨rfl, fun j _ => rfl⟩
      · rw [h2 k hk]
        exact ⟨set_bc_patch_w _ _ _ _ _,
          fun j hj => set_bc_patch_offguard _ _ _ _ _ (hw1 k) j hj⟩
    rw [List.foldl_cons]
    apply ih (set_bc_step st' i0) hndL
    · intro k hk
      have hki0 : k ≠ i0 := fun h => hi0 (h ▸ hk)
      simp only [set_bc_step]
      rw [Function.update_noteq hki0]
      exact h1 k (List.mem_cons_of_mem _ hk)
    · intro k hk
      by_cases hki0 : k = i0
      · subst hki0
        simp only [set_bc_step, set_bc_par]
        rw [Function.update_same]
        refine set_bc_patch_congr _ _ _ _ _ _ _ _ (hw1 k)
          (hagree _).1 (hagree _).1 ?_ ?_ ?_
        · intro j hj1 hj2
          exact (hagree _).2 j (Or.inl ⟨le_trans (hw _) hj1, hj2⟩)
        · intro j hj
          exact (hagree _).2 j hj
        · intro j hj1 hj2
          refine (hagree _).2 j (Or.inl ⟨hj1, ?_⟩)
          have := hw ⟨(k.1 + n + 1) % n, Nat.mod_lt _ k.pos⟩
          omega
      · simp only [set_bc_step]
        rw [Function.update_noteq hki0]
        exact h2 k (fun h => hk (by
          rcases List.mem_cons.mp h with h' | h'
          · exact absurd h' hki0
          · exact h'))

/-- `set_bc` equals the order-independent exchange when every patch interior
is at least `ng` wide. -/
theorem set_bc_eq_par {α : Type} {n : ℕ} (st : Fin n → PatchBuf α)
    (hw : ∀ k, ng ≤ (st k).w) : set_bc n st = set_bc_par n st :=
  set_bc_foldl_eq_par st hw (List.finRange n) st (List.nodup_finRange n)
    (fun _ _ => rfl) (fun k hk => absurd (List.mem_finRange k) hk)

/-! ## Claims C7 and C8: the boundary exchange -/

/-- Claim C7: for every patch, `set_bc` fills the `ng` left guard cells from
the left neighbor's interior tail (`pl[pl.w + i]`, `i < ng`) and the `ng`
right guard cells from the right neighbor's interior head
(`pr[i - pc.w]`, i.e. `pr[ng..2*ng)`), with neighbor indices wrapping
modulo the patch count (self-exchange when `n = 1`); on the patch at a
global domain edge the edge guard cells are instead overwritten by
replicating the adjacent interior cell (`pc[ng]` on the inner edge,
`pc[pc.w + ng - 1]` on the outer edge — the solver's only supported global
condition is "outflow"); all interior cells are untouched.  Requires every
patch interior to be at least `ng` cells wide, so that the copied bands
are in fact interior. -/
theorem claim_C7_boundary_exchange {α : Type} {n : ℕ}
    (st : Fin n → PatchBuf α) (hw : ∀ k, ng ≤ (st k).w) (k : Fin n) :
    (set_bc n st k).w = (st k).w ∧
    (∀ i, i < ng →
      (k.1 ≠ 0 →
        (set_bc n st k).data i =
          (st ⟨(k.1 + n - 1) % n, Nat.mod_lt _ k.pos⟩).data
            ((st ⟨(k.1 + n - 1) % n, Nat.mod_lt _ k.pos⟩).w + i)) ∧
      (k.1 = 0 → (set_bc n st k).data i = (st k).data ng)) ∧
    (∀ i, (st k).w + ng ≤ i → i < (st k).w + 2 * ng →
      (k.1 ≠ n - 1 →
        (set_bc n st k).data i =
          (st ⟨(k.1 + n + 1) % n, Nat.mod_lt _ k.pos⟩).data (i - (st k).w)) ∧
      (k.1 = n - 1 →
        (set_bc n st k).data i = (st k).data ((st k).w + ng - 1))) ∧
    (∀ i, ng ≤ i → i < (st k).w + ng →
      (set_bc n st k).data i = (st k).data i) := by
  have hng : ng = 2 := rfl
  have hw1 : 1 ≤ (st k).w := le_trans (by omega) (hw k)
  rw [set_bc_eq_par st hw]
  simp only [set_bc_par]
  refine ⟨set_bc_patch_w _ _ _ _ _, ?_, ?_, ?_⟩
  · intro i hi
    constructor
    · intro hk0
      rw [set_bc_patch_data _ _ _ _ _ hw1 i]
      split_ifs <;> first | rfl | omega
    · intro hk0
      rw [set_bc_patch_data _ _ _ _ _ hw1 i]
      split_ifs <;> first | rfl | omega
  · intro i hi1 hi2
    constructor
    · intro hkl
      rw [set_bc_patch_data _ _ _ _ _ hw1 i]
      split_ifs <;> first | rfl | omega
    · intro hkl
      rw [set_bc_patch_data _ _ _ _ _ hw1 i]
      split_ifs <;> first | rfl | omega
  · intro i hi1 hi2
    exact set_bc_patch_offguard _ _ _ _ _ hw1 i (Or.inl ⟨hi1, hi2⟩)

/-- Witness for claim C7 at the concrete state `stW`: on patch 0 of two,
the inner-edge guard cell is the replicated first interior cell, and the
right guard comes from patch 1's interior head. -/
theorem claim_C7_boundary_exchange_witness :
    (∀ k : Fin 2, ng ≤ (stW k).w) ∧
      (set_bc 2 stW 0).data 0 = (stW 0).data ng ∧
      (set_bc 2 stW 0).data (2 + ng) = (stW 1).data ng := by
  have hyp : ∀ k : Fin 2, ng ≤ (stW k).w := by decide
  refine ⟨hyp, ?_, ?_⟩
  · exact ((claim_C7_boundary_exchange stW hyp 0).2.1 0 (by decide)).2 rfl
  · exact ((claim_C7_boundary_exchange stW hyp 0).2.2.1 (2 + ng) (by decide)
      (by decide)).1 (by decide)

/-- Claim C8: the boundary exchange is idempotent — with every patch
interior at least `ng` wide, a second `set_bc` with no intervening mutation
rewrites every guard cell with the value it already holds, so the state
(guard zones included) is unchanged. -/
theorem claim_C8_set_bc_idempotent {α : Type} {n : ℕ}
    (st : Fin n → PatchBuf α) (hw : ∀ k, ng ≤ (st k).w) :
    set_bc n (set_bc n st) = set_bc n st := by
  have hng : ng = 2 := rfl
  have hw1 : ∀ j : Fin n, 1 ≤ (st j).w := fun j => le_trans (by omega) (hw j)
  have h1 : set_bc n st = set_bc_par n st := set_bc_eq_par st hw
  have hw' : ∀ k, ng ≤ ((set_bc n st) k).w := by
    intro k
    rw [h1]
    simp only [set_bc_par]
    rw [set_bc_patch_w]
    exact hw k
  rw [set_bc_eq_par (set_bc n st) hw', h1]
  funext k
  simp only [set_bc_par]
  refine set_bc_patch_congr _ _ _ _ _ _ _ _ (hw1 k)
    (set_bc_patch_w _ _ _ _ _) (set_bc_patch_w _ _ _ _ _) ?_ ?_ ?_
  · intro j hj1 hj2
    exact set_bc_patch_offguard _ _ _ _ _ (hw1 _) j
      (Or.inl ⟨le_trans (hw _) hj1, hj2⟩)
  · intro j hj
    exact set_bc_patch_offguard _ _ _ _ _ (hw1 k) j hj
  · intro j hj1 hj2
    refine set_bc_patch_offguard _ _ _ _ _ (hw1 _) j (Or.inl ⟨hj1, ?_⟩)
    have := hw ⟨(k.1 + n + 1) % n, Nat.mod_lt _ k.pos⟩
    omega

/-- Witness for claim C8 at the concrete two-patch state `stW`. -/
theorem claim_C8_set_bc_idempotent_witness :
    (∀ k : Fin 2, ng ≤ (stW k).w) ∧
      set_bc 2 (set_bc 2 stW) = set_bc 2 stW :=
  ⟨by decide, claim_C8_set_bc_idempotent stW (by decide)⟩

/-! ## Claim C6: the Runge-Kutta stage schedule of `Solver.advance` -/

/-- Counterexample to claim C6: the claim says the stage-weight schedule is
selectable among the 1-stage `[0]`, 2-stage `[0, 1/2]` and 3-stage
`[0, 3/4, 1/3]` schedules; but `Solver.advance` takes no selection input
and iterates over `bs_rk2` unconditionally, so (here for a 1-patch solver)
the executed stage weights are exactly `bs_rk2` and neither the 1-stage nor
the 3-stage schedule can ever run. -/
theorem claim_C6_counterexample :
    traceStageWeights (solver_advance_trace 1) = bs_rk2
      ∧ bs_rk2 ≠ bs_rk1 ∧ bs_rk2 ≠ bs_rk3 := by
  refine ⟨?_, ?_, ?_⟩
  · simp [traceStageWeights, solver_advance_trace, solver_new_iteration_trace,
      solver_advance_rk_trace, bs_rk2, List.filterMap]
  · simp [bs_rk1, bs_rk2]
  · simp [bs_rk2, bs_rk3]

/-- Claim C6 (amended): `Solver.advance(dt)` always executes the 2-stage
stage-weight schedule `[0, 1/2]` (the 1-stage `[0]` and 3-stage
`[0, 3/4, 1/3]` schedules appear in the method body but are never
selected); after `new_iteration` on every patch, each stage in order first
recomputes primitives on every patch, then runs the boundary exchange over
all patches, and only then calls `advance_rk` on every patch with that
stage's weight. -/
theorem claim_C6_advance_schedule (n : ℕ) :
    solver_advance_trace n =
      (List.range n).map SolverEvent.newIteration
        ++ ((List.range n).map SolverEvent.recomputePrimitive
              ++ [SolverEvent.setBC]
              ++ (List.range n).map (fun k => SolverEvent.advanceRK k (0 / 1)))
        ++ ((List.range n).map SolverEvent.recomputePrimitive
              ++ [SolverEvent.setBC]
              ++ (List.range n).map (fun k => SolverEvent.advanceRK k (1 / 2))) := by
  simp [solver_advance_trace, solver_new_iteration_trace,
    solver_advance_rk_trace, bs_rk2]

/-! ## Claim C9: `Solver.maximum_wavespeed` -/

/-- Counterexample to claim C9: the claim says `Solver.maximum_wavespeed()`
returns the maximum of `Patch.maximum_wavespeed` over the solver's patches;
but the method body is `return 1.0` (the aggregation is commented out), so
for a single-patch solver whose patch-wide maximum wavespeed is `1/2` the
method still returns `1`. -/
theorem claim_C9_counterexample :
    solver_maximum_wavespeed ⟨[1 / 2]⟩ = 1
      ∧ solver_patch_aggregate_wavespeed ⟨[1 / 2]⟩ = 1 / 2
      ∧ (1 : ℝ) ≠ 1 / 2 := by
  refine ⟨by norm_num [solver_maximum_wavespeed], ?_, by norm_num⟩
  simp [solver_patch_aggregate_wavespeed]

/-- Claim C9 (amended): `Solver.maximum_wavespeed()` returns the constant
`1.0` regardless of the patches' wavespeed state; the per-patch aggregation
the spec describes exists in the source only as a commented-out line. -/
theorem claim_C9_maximum_wavespeed_constant (s : SolverWavespeedState) :
    solver_maximum_wavespeed s = 1 := by
  norm_num [solver_maximum_wavespeed]

/-! ## Claim C10: boundary-condition acceptance at construction -/

/-- Counterexample to claim C10: the claim says Solver construction accepts
either global boundary condition, "periodic" or "outflow"; but
`Solver.__init__` raises `ValueError` for every value other than
"outflow", in particular for "periodic". -/
theorem claim_C10_counterexample :
    solver_init_boundary_check "periodic" =
      Except.error "srhd_2d solver only supports outflow radial boundaries" := by
  simp [solver_init_boundary_check]

/-- Claim C10 (amended): Solver construction accepts only the "outflow"
boundary condition; any other value — including "periodic" — is reported at
construction time by raising a fatal `ValueError` (never retried, never
deferred to run time). -/
theorem claim_C10_boundary_check (bc : String) :
    (solver_init_boundary_check bc = Except.ok () ↔ bc = "outflow")
      ∧ (bc ≠ "outflow" →
          solver_init_boundary_check bc =
            Except.error "srhd_2d solver only supports outflow radial boundaries") := by
  constructor
  · constructor
    · intro h
      by_contra hbc
      simp [solver_init_boundary_check, hbc] at h
    · intro h
      simp [solver_init_boundary_check, h]
  · intro h
    simp [solver_init_boundary_check, h]

/-! ## Claims C3 and C4: characteristic wavespeeds and HLLE consistency -/

/-- The sound speed squared is positive on a physical state (`ρ > 0`,
`P > 0`, `Γ > 1`). -/
theorem sound_speed_squared_pos (gm : ℝ) (p : Prim) (hrho : 0 < p.rho)
    (hpre : 0 < p.pre) (hgm : 1 < gm) : 0 < sound_speed_squared gm p := by
  have h1 : (0 : ℝ) < gm - 1 := by linarith
  have h2 : (0 : ℝ) < 1 + 1 / (gm - 1) := by positivity
  have hrhoh : 0 < p.rho + p.pre * (1 + 1 / (gm - 1)) := by positivity
  simp only [sound_speed_squared]
  exact mul_pos (div_pos hpre hrhoh) (by linarith)

/-- The sound speed squared is below the speed of light on a physical state
when `Γ ≤ 2` (the default `Γ = 5/3` satisfies this). -/
theorem sound_speed_squared_lt_one (gm : ℝ) (p : Prim) (hrho : 0 < p.rho)
    (hpre : 0 < p.pre) (hgm : 1 < gm) (hgm2 : gm ≤ 2) :
    sound_speed_squared gm p < 1 := by
  have h1 : (0 : ℝ) < gm - 1 := by linarith
  have h2 : (0 : ℝ) < 1 + 1 / (gm - 1) := by positivity
  have hrhoh : 0 < p.rho + p.pre * (1 + 1 / (gm - 1)) := by positivity
  have h5 : 1 ≤ 1 / (gm - 1) := by
    rw [le_div_iff h1]; linarith
  have h6 : gm ≤ 1 + 1 / (gm - 1) := by linarith
  simp only [sound_speed_squared]
  rw [div_mul_eq_mul_div, div_lt_one hrhoh]
  nlinarith [mul_le_mul_of_nonneg_left h6 hpre.le]

/-- Core algebra of the relativistic characteristic speeds: for sound speed
squared `c ∈ (0,1)`, total squared velocity `s ∈ [0,1)` and normal velocity
`q` with `q² ≤ s`, the two roots are ordered and both lie in `[-1, 1]`.
The decisive fact is the exact factorization
`((1-sc) ∓ q(1-c))² - c(1-s)(1-sc-q²(1-c)) = (1-sc)(1-c)(1∓q)²`. -/
theorem wavespeed_shape (c s q : ℝ) (hc0 : 0 < c) (hc1 : c < 1)
    (hs0 : 0 ≤ s) (hs1 : s < 1) (hq : q * q ≤ s) :
    (q * (1 - c) - Real.sqrt (c * (1 - s) * (1 - s * c - q * q * (1 - c))))
        / (1 - s * c) ≤
      (q * (1 - c) + Real.sqrt (c * (1 - s) * (1 - s * c - q * q * (1 - c))))
        / (1 - s * c) ∧
    |(q * (1 - c) - Real.sqrt (c * (1 - s) * (1 - s * c - q * q * (1 - c))))
        / (1 - s * c)| ≤ 1 ∧
    |(q * (1 - c) + Real.sqrt (c * (1 - s) * (1 - s * c - q * q * (1 - c))))
        / (1 - s * c)| ≤ 1 := by
  have hk0 : 0 ≤ Real.sqrt (c * (1 - s) * (1 - s * c - q * q * (1 - c))) :=
    Real.sqrt_nonneg _
  have hq1 : q ≤ 1 := by nlinarith
  have hqm : -1 ≤ q := by nlinarith
  have hden : 0 < 1 - s * c := by nlinarith
  have hcle : (0 : ℝ) ≤ 1 - c := by linarith
  have hR1 : 0 ≤ (1 - s * c) - q * (1 - c) := by nlinarith
  have hR2 : 0 ≤ (1 - s * c) + q * (1 - c) := by nlinarith
  have key1 : ((1 - s * c) - q * (1 - c)) ^ 2
      - c * (1 - s) * (1 - s * c - q * q * (1 - c))
      = (1 - s * c) * (1 - c) * (1 - q) ^ 2 := by ring
  have key2 : ((1 - s * c) + q * (1 - c)) ^ 2
      - c * (1 - s) * (1 - s * c - q * q * (1 - c))
      = (1 - s * c) * (1 - c) * (1 + q) ^ 2 := by ring
  have hpos1 : 0 ≤ (1 - s * c) * (1 - c) * (1 - q) ^ 2 :=
    mul_nonneg (mul_nonneg hden.le hcle) (sq_nonneg _)
  have hpos2 : 0 ≤ (1 - s * c) * (1 - c) * (1 + q) ^ 2 :=
    mul_nonneg (mul_nonneg hden.le hcle) (sq_nonneg _)
  have hub1 : Real.sqrt (c * (1 - s) * (1 - s * c - q * q * (1 - c)))
      ≤ (1 - s * c) - q * (1 - c) := by
    calc Real.sqrt (c * (1 - s) * (1 - s * c - q * q * (1 - c)))
        ≤ Real.sqrt (((1 - s * c) - q * (1 - c)) ^ 2) :=
          Real.sqrt_le_sqrt (by linarith)
      _ = (1 - s * c) - q * (1 - c) := Real.sqrt_sq hR1
  have hub2 : Real.sqrt (c * (1 - s) * (1 - s * c - q * q * (1 - c)))
      ≤ (1 - s * c) + q * (1 - c) := by
    calc Real.sqrt (c * (1 - s) * (1 - s * c - q * q * (1 - c)))
        ≤ Real.sqrt (((1 - s * c) + q * (1 - c)) ^ 2) :=
          Real.sqrt_le_sqrt (by linarith)
      _ = (1 - s * c) + q * (1 - c) := Real.sqrt_sq hR2
  refine ⟨?_, ?_, ?_⟩
  · rw [div_le_div_iff hden hden]
    nlinarith
  · rw [abs_le]
    constructor
    · rw [le_div_iff hden]
      nlinarith
    · rw [div_le_one hden]
      nlinarith
  · rw [abs_le]
    constructor
    · rw [le_div_iff hden]
      nlinarith
    · rw [div_le_one hden]
      nlinarith

/-- The two characteristic roots are strictly separated on a physical state
(positive sound speed): the square root term is strictly positive. -/
theorem wavespeed_shape_lt (c s q : ℝ) (hc0 : 0 < c) (hc1 : c < 1)
    (hs0 : 0 ≤ s) (hs1 : s < 1) (hq : q * q ≤ s) :
    (q * (1 - c) - Real.sqrt (c * (1 - s) * (1 - s * c - q * q * (1 - c))))
        / (1 - s * c) <
      (q * (1 - c) + Real.sqrt (c * (1 - s) * (1 - s * c - q * q * (1 - c))))
        / (1 - s * c) := by
  have hden : 0 < 1 - s * c := by nlinarith
  have hcle : (0 : ℝ) ≤ 1 - c := by linarith
  have hthird : 0 < 1 - s * c - q * q * (1 - c) := by
    nlinarith [mul_le_mul_of_nonneg_right hq hcle]
  have hradpos : 0 < c * (1 - s) * (1 - s * c - q * q * (1 - c)) := by
    apply mul_pos (mul_pos hc0 (by linarith)) hthird
  have hk0 : 0 < Real.sqrt (c * (1 - s) * (1 - s * c - q * q * (1 - c))) :=
    Real.sqrt_pos.mpr hradpos
  rw [div_lt_div_iff hden hden]
  nlinarith

/-- The squared normal velocity never exceeds the squared total velocity
`uu/(1+uu)` (for any direction selector, including the `vn = 0` default). -/
theorem normal_velocity_sq_le (p : Prim) (direction : ℕ) :
    (if direction = 1 then
        p.ux / Real.sqrt (1 + (p.ux * p.ux + p.uy * p.uy + p.uz * p.uz))
      else if direction = 2 then
        p.uy / Real.sqrt (1 + (p.ux * p.ux + p.uy * p.uy + p.uz * p.uz))
      else if direction = 3 then
        p.uz / Real.sqrt (1 + (p.ux * p.ux + p.uy * p.uy + p.uz * p.uz))
      else 0) *
      (if direction = 1 then
        p.ux / Real.sqrt (1 + (p.ux * p.ux + p.uy * p.uy + p.uz * p.uz))
      else if direction = 2 then
        p.uy / Real.sqrt (1 + (p.ux * p.ux + p.uy * p.uy + p.uz * p.uz))
      else if direction = 3 then
        p.uz / Real.sqrt (1 + (p.ux * p.ux + p.uy * p.uy + p.uz * p.uz))
      else 0) ≤
    (p.ux * p.ux + p.uy * p.uy + p.uz * p.uz)
      / (1 + (p.ux * p.ux + p.uy * p.uy + p.uz * p.uz)) := by
  have huu : (0 : ℝ) ≤ p.ux * p.ux + p.uy * p.uy + p.uz * p.uz := by
    nlinarith [mul_self_nonneg p.ux, mul_self_nonneg p.uy, mul_self_nonneg p.uz]
  have huu1 : (0 : ℝ) < 1 + (p.ux * p.ux + p.uy * p.uy + p.uz * p.uz) := by
    linarith
  have hww : Real.sqrt (1 + (p.ux * p.ux + p.uy * p.uy + p.uz * p.uz)) *
      Real.sqrt (1 + (p.ux * p.ux + p.uy * p.uy + p.uz * p.uz)) =
      1 + (p.ux * p.ux + p.uy * p.uy + p.uz * p.uz) :=
    Real.mul_self_sqrt huu1.le
  split_ifs with h1 h2 h3
  · rw [div_mul_div_comm, hww, div_le_div_iff huu1 huu1]
    nlinarith [mul_self_nonneg p.uy, mul_self_nonneg p.uz]
  · rw [div_mul_div_comm, hww, div_le_div_iff huu1 huu1]
    nlinarith [mul_self_nonneg p.ux, mul_self_nonneg p.uz]
  · rw [div_mul_div_comm, hww, div_le_div_iff huu1 huu1]
    nlinarith [mul_self_nonneg p.ux, mul_self_nonneg p.uy]
  · rw [zero_mul]
    exact div_nonneg huu huu1.le

/-- Claim C4: on a physical primitive state (`ρ > 0`, `P > 0`; `1 < Γ ≤ 2`
so the sound speed stays below the light speed — true of the source's
default `Γ = 5/3`), and for every direction selector, `outer_wavespeeds`
returns a pair `(a⁻, a⁺)` with `a⁻ ≤ a⁺` and `|a⁻|, |a⁺| ≤ 1`, the
characteristic speed limit. -/
theorem claim_C4_outer_wavespeeds (gm : ℝ) (p : Prim) (direction : ℕ)
    (hrho : 0 < p.rho) (hpre : 0 < p.pre) (hgm : 1 < gm) (hgm2 : gm ≤ 2) :
    (outer_wavespeeds gm p direction).1 ≤ (outer_wavespeeds gm p direction).2 ∧
      |(outer_wavespeeds gm p direction).1| ≤ 1 ∧
      |(outer_wavespeeds gm p direction).2| ≤ 1 := by
  have huu : (0 : ℝ) ≤ p.ux * p.ux + p.uy * p.uy + p.uz * p.uz := by
    nlinarith [mul_self_nonneg p.ux, mul_self_nonneg p.uy, mul_self_nonneg p.uz]
  have hc0 := sound_speed_squared_pos gm p hrho hpre hgm
  have hc1 := sound_speed_squared_lt_one gm p hrho hpre hgm hgm2
  have hs0 : (0 : ℝ) ≤ (p.ux * p.ux + p.uy * p.uy + p.uz * p.uz)
      / (1 + (p.ux * p.ux + p.uy * p.uy + p.uz * p.uz)) :=
    div_nonneg huu (by linarith)
  have hs1 : (p.ux * p.ux + p.uy * p.uy + p.uz * p.uz)
      / (1 + (p.ux * p.ux + p.uy * p.uy + p.uz * p.uz)) < 1 := by
    rw [div_lt_one (by linarith)]
    linarith
  have hq := normal_velocity_sq_le p direction
  simp only [outer_wavespeeds]
  exact wavespeed_shape _ _ _ hc0 hc1 hs0 hs1 hq

/-- The two outer wavespeeds are strictly ordered on a physical state: the
square-root term of `outer_wavespeeds` is strictly positive. -/
theorem outer_wavespeeds_lt (gm : ℝ) (p : Prim) (direction : ℕ)
    (hrho : 0 < p.rho) (hpre : 0 < p.pre) (hgm : 1 < gm) (hgm2 : gm ≤ 2) :
    (outer_wavespeeds gm p direction).1 < (outer_wavespeeds gm p direction).2 := by
  have huu : (0 : ℝ) ≤ p.ux * p.ux + p.uy * p.uy + p.uz * p.uz := by
    nlinarith [mul_self_nonneg p.ux, mul_self_nonneg p.uy, mul_self_nonneg p.uz]
  have hc0 := sound_speed_squared_pos gm p hrho hpre hgm
  have hc1 := sound_speed_squared_lt_one gm p hrho hpre hgm hgm2
  have hs0 : (0 : ℝ) ≤ (p.ux * p.ux + p.uy * p.uy + p.uz * p.uz)
      / (1 + (p.ux * p.ux + p.uy * p.uy + p.uz * p.uz)) :=
    div_nonneg huu (by linarith)
  have hs1 : (p.ux * p.ux + p.uy * p.uy + p.uz * p.uz)
      / (1 + (p.ux * p.ux + p.uy * p.uy + p.uz * p.uz)) < 1 := by
    rw [div_lt_one (by linarith)]
    linarith
  have hq := normal_velocity_sq_le p direction
  simp only [outer_wavespeeds]
  exact wavespeed_shape_lt _ _ _ hc0 hc1 hs0 hs1 hq

/-- Witness for claim C4 at `Γ = 5/3`, the state `primW`, direction 1. -/
theorem claim_C4_outer_wavespeeds_witness :
    (0 < primW.rho ∧ 0 < primW.pre ∧ (1 : ℝ) < 5 / 3 ∧ (5 / 3 : ℝ) ≤ 2) ∧
      ((outer_wavespeeds (5 / 3) primW 1).1 ≤ (outer_wavespeeds (5 / 3) primW 1).2 ∧
        |(outer_wavespeeds (5 / 3) primW 1).1| ≤ 1 ∧
        |(outer_wavespeeds (5 / 3) primW 1).2| ≤ 1) :=
  ⟨⟨by norm_num [primW], by norm_num [primW], by norm_num, by norm_num⟩,
    claim_C4_outer_wavespeeds (5 / 3) primW 1 (by norm_num [primW])
      (by norm_num [primW]) (by norm_num) (by norm_num)⟩

/-- Claim C3: on a physical primitive state (`ρ > 0`, `P > 0`, `1 < Γ ≤ 2`)
and for every direction, `riemann_hlle(p, p, direction)` equals the exact
analytic flux `prim_and_cons_to_flux(p, prim_to_cons(p), direction)`: with
equal inputs the HLLE formula reduces to `fl (ap - am)/(ap - am)`, and
`ap - am > 0` because the outer wavespeeds are strictly separated. -/
theorem claim_C3_riemann_hlle_consistency (gm : ℝ) (p : Prim) (direction : ℕ)
    (hrho : 0 < p.rho) (hpre : 0 < p.pre) (hgm : 1 < gm) (hgm2 : gm ≤ 2) :
    riemann_hlle gm p p direction =
      prim_and_cons_to_flux p (prim_to_cons gm p) direction := by
  have hlt := outer_wavespeeds_lt gm p direction hrho hpre hgm hgm2
  have hstrict : min 0 (outer_wavespeeds gm p direction).1 <
      max 0 (outer_wavespeeds gm p direction).2 := by
    rcases le_or_lt 0 (outer_wavespeeds gm p direction).1 with h | h
    · rw [min_eq_left h]
      exact lt_max_of_lt_right (lt_of_le_of_lt h hlt)
    · rw [min_eq_right h.le]
      exact lt_of_lt_of_le h (le_max_left 0 _)
  have hne : max 0 (outer_wavespeeds gm p direction).2 -
      min 0 (outer_wavespeeds gm p direction).1 ≠ 0 :=
    sub_ne_zero.mpr (ne_of_gt hstrict)
  have hcomp : ∀ T U : ℝ,
      (T * max 0 (outer_wavespeeds gm p direction).2 -
        T * min 0 (outer_wavespeeds gm p direction).1 -
        (U - U) * max 0 (outer_wavespeeds gm p direction).2 *
          min 0 (outer_wavespeeds gm p direction).1) /
        (max 0 (outer_wavespeeds gm p direction).2 -
          min 0 (outer_wavespeeds gm p direction).1) = T := by
    intro T U
    rw [sub_self, zero_mul, zero_mul, sub_zero, ← mul_sub,
      mul_div_assoc, div_self hne, mul_one]
  simp only [riemann_hlle]
  rw [min_self, max_self]
  exact Cons.ext (hcomp _ _) (hcomp _ _) (hcomp _ _) (hcomp _ _) (hcomp _ _)

/-! ## Claim C1: the primitive/conserved round trip -/

/-- Evaluated at the conserved image of a physical primitive state, with
the pressure guess equal to that state's pressure, one Newton pass is
exact: the residual is `0`, the in-loop Lorentz factor is the state's
`w = sqrt(1+|γβ|²)`, and the pressure update is a no-op.  (The bound on
`|γβ|²` keeps the `b2`-clamp `min(·, 1 - 1e-10)` inactive: the threshold
is `|γβ|² ≤ 1e10 - 1`.) -/
theorem c2pPass_roundtrip (gm : ℝ) (p : Prim) (hrho : 0 < p.rho)
    (hpre : 0 < p.pre) (hgm : 1 < gm)
    (hu : p.ux * p.ux + p.uy * p.uy + p.uz * p.uz ≤ 9999999999) :
    c2pPass gm (prim_to_cons gm p) p.pre =
      ⟨0, Real.sqrt (1 + p.ux * p.ux + p.uy * p.uy + p.uz * p.uz), p.pre⟩ := by
  have hgm1 : (0 : ℝ) < gm - 1 := by linarith
  have huu0 : (0 : ℝ) ≤ p.ux * p.ux + p.uy * p.uy + p.uz * p.uz := by
    nlinarith [mul_self_nonneg p.ux, mul_self_nonneg p.uy, mul_self_nonneg p.uz]
  set W := Real.sqrt (1 + p.ux * p.ux + p.uy * p.uy + p.uz * p.uz) with hWdef
  have hW2 : W * W = 1 + p.ux * p.ux + p.uy * p.uy + p.uz * p.uz :=
    Real.mul_self_sqrt (by linarith)
  have hWnn : 0 ≤ W := by rw [hWdef]; exact Real.sqrt_nonneg _
  have hWpos : 0 < W := by nlinarith
  simp only [c2pPass, prim_to_cons]
  rw [← hWdef]
  set em := p.rho * W with hem
  set he := 1 + p.pre / p.rho * (1 + 1 / (gm - 1)) with hhe
  have hα : (0 : ℝ) < 1 + 1 / (gm - 1) := by
    have := one_div_pos.mpr hgm1
    linarith
  have hhepos : 0 < he := by
    rw [hhe]
    have := div_pos hpre hrho
    nlinarith
  have hempos : 0 < em := by
    rw [hem]
    exact mul_pos hrho hWpos
  have het : em * (he * W - 1) - p.pre + p.pre + em = em * he * W := by ring
  rw [het]
  have hss : (em * he * p.ux * (em * he * p.ux) +
        em * he * p.uy * (em * he * p.uy) +
        em * he * p.uz * (em * he * p.uz)) / (em * he * W) / (em * he * W) =
      (p.ux * p.ux + p.uy * p.uy + p.uz * p.uz)
        / (1 + (p.ux * p.ux + p.uy * p.uy + p.uz * p.uz)) := by
    have hd1 : em * he * W * (em * he * W) ≠ 0 :=
      ne_of_gt (mul_pos (mul_pos (mul_pos hempos hhepos) hWpos)
        (mul_pos (mul_pos hempos hhepos) hWpos))
    have hd2 : (1 : ℝ) + (p.ux * p.ux + p.uy * p.uy + p.uz * p.uz) ≠ 0 := by
      linarith
    rw [div_div, div_eq_div_iff hd1 hd2]
    linear_combination
      (-(em * em * he * he * (p.ux * p.ux + p.uy * p.uy + p.uz * p.uz))) * hW2
  rw [hss]
  have hclamp : (p.ux * p.ux + p.uy * p.uy + p.uz * p.uz)
      / (1 + (p.ux * p.ux + p.uy * p.uy + p.uz * p.uz)) ≤ 1 - 1 / 10 ^ 10 := by
    rw [div_le_iff (by linarith)]
    nlinarith
  rw [min_eq_left hclamp]
  have hone : (1 : ℝ) - (p.ux * p.ux + p.uy * p.uy + p.uz * p.uz)
      / (1 + (p.ux * p.ux + p.uy * p.uy + p.uz * p.uz)) =
      1 / (1 + (p.ux * p.ux + p.uy * p.uy + p.uz * p.uz)) := by
    field_simp
  rw [hone, one_div_one_div]
  have hfold : Real.sqrt (1 + (p.ux * p.ux + p.uy * p.uy + p.uz * p.uz)) = W := by
    rw [hWdef]
    congr 1
    ring
  rw [hfold]
  have hW2' : (1 : ℝ) - (1 + (p.ux * p.ux + p.uy * p.uy + p.uz * p.uz)) =
      1 - W * W := by rw [hW2]; ring
  rw [hW2']
  rw [C2PStep.mk.injEq]
  refine ⟨?_, rfl, ?_⟩
  · rw [hem, hhe]
    field_simp
    ring
  · rw [sub_eq_self, div_eq_zero_iff]
    left
    rw [hem, hhe]
    field_simp
    ring

/-- Writing back the primitives from the exact fixed point recovers the
original state exactly: `m/w = ρ`, `w·Sᵢ/(τ+m+P) = γβᵢ`, and the pressure
is returned unchanged. -/
theorem c2pFinish_roundtrip (gm : ℝ) (p : Prim) (hrho : 0 < p.rho)
    (hpre : 0 < p.pre) (hgm : 1 < gm) :
    c2pFinish (prim_to_cons gm p) p.pre
      (Real.sqrt (1 + p.ux * p.ux + p.uy * p.uy + p.uz * p.uz)) = p := by
  have hgm1 : (0 : ℝ) < gm - 1 := by linarith
  have huu0 : (0 : ℝ) ≤ p.ux * p.ux + p.uy * p.uy + p.uz * p.uz := by
    nlinarith [mul_self_nonneg p.ux, mul_self_nonneg p.uy, mul_self_nonneg p.uz]
  set W := Real.sqrt (1 + p.ux * p.ux + p.uy * p.uy + p.uz * p.uz) with hWdef
  have hW2 : W * W = 1 + p.ux * p.ux + p.uy * p.uy + p.uz * p.uz :=
    Real.mul_self_sqrt (by linarith)
  have hWnn : 0 ≤ W := by rw [hWdef]; exact Real.sqrt_nonneg _
  have hWpos : 0 < W := by nlinarith
  simp only [c2pFinish, prim_to_cons]
  rw [← hWdef]
  set em := p.rho * W with hem
  set he := 1 + p.pre / p.rho * (1 + 1 / (gm - 1)) with hhe
  have hα : (0 : ℝ) < 1 + 1 / (gm - 1) := by
    have := one_div_pos.mpr hgm1
    linarith
  have hhepos : 0 < he := by
    rw [hhe]
    have := div_pos hpre hrho
    nlinarith
  have hempos : 0 < em := by
    rw [hem]
    exact mul_pos hrho hWpos
  have htau : em * (he * W - 1) - p.pre + em + p.pre = em * he * W := by ring
  rw [htau]
  refine Prim.ext ?_ ?_ ?_ ?_ rfl
  · rw [hem]
    exact mul_div_cancel_right₀ p.rho hWpos.ne'
  · field_simp
    ring
  · field_simp
    ring
  · field_simp
    ring

/-- Round trip of the variable transforms at the exact fixed point: on any
physical primitive state, `cons_to_prim` applied to `prim_to_cons p`, with
the pressure guess read from a buffer holding the state's pressure,
converges on the first pass (residual exactly `0 < 1e-12`) and returns the
state exactly. -/
theorem cons_to_prim_roundtrip (gm : ℝ) (p : Prim) (hrho : 0 < p.rho)
    (hpre : 0 < p.pre) (hgm : 1 < gm)
    (hu : p.ux * p.ux + p.uy * p.uy + p.uz * p.uz ≤ 9999999999) :
    cons_to_prim gm (prim_to_cons gm p) p.pre = some (some p) := by
  rw [cons_to_prim, show (51 : ℕ) = 50 + 1 from rfl]
  simp only [c2pLoop]
  rw [c2pPass_roundtrip gm p hrho hpre hgm hu]
  norm_num [errorTolerance]
  exact c2pFinish_roundtrip gm p hrho hpre hgm

/-- Claim C1: for every physical primitive state (`ρ > 0`, `P > 0`,
`Γ > 1`, four-velocity below the `b2`-clamp threshold `|γβ|² ≤ 1e10 - 1`),
applying `prim_to_cons` and then `cons_to_prim` (the pressure guess read
from the output buffer holding the state's pressure, as in the module's
round-trip test) recovers the original state exactly — in particular
within the `1e-12` pressure-residual tolerance, which the recovering pass
meets with residual exactly `0`. -/
theorem claim_C1_roundtrip (gm : ℝ) (p : Prim) (hrho : 0 < p.rho)
    (hpre : 0 < p.pre) (hgm : 1 < gm)
    (hu : p.ux * p.ux + p.uy * p.uy + p.uz * p.uz ≤ 9999999999) :
    cons_to_prim gm (prim_to_cons gm p) p.pre = some (some p) :=
  cons_to_prim_roundtrip gm p hrho hpre hgm hu

/-- Witness for claim C1 at `Γ = 5/3` and the module's own test state
`primW = [1, 2, 5, 1, 0.01]`. -/
theorem claim_C1_roundtrip_witness :
    (0 < primW.rho ∧ 0 < primW.pre ∧ (1 : ℝ) < 5 / 3 ∧
        primW.ux * primW.ux + primW.uy * primW.uy + primW.uz * primW.uz ≤
          9999999999) ∧
      cons_to_prim (5 / 3) (prim_to_cons (5 / 3) primW) primW.pre =
        some (some primW) :=
  ⟨⟨by norm_num [primW], by norm_num [primW], by norm_num,
      by norm_num [primW]⟩,
    claim_C1_roundtrip (5 / 3) primW (by norm_num [primW])
      (by norm_num [primW]) (by norm_num) (by norm_num [primW])⟩

/-! ## Claim C5: the checked conserved-to-primitive variant -/

/-- Claim C5: `cons_to_prim_check` performs the same pressure solve as
`cons_to_prim` — whenever that solve produces a result `p`, the checked
variant returns the same `p` (it never terminates the run on an invalid
result) together with a per-cell status code distinguishing negative mass
density (`1`, `u[DEN] < 0`), negative energy (`2`, `u[NRG] < 0`), negative
pressure (`3`, `p[PRE] < 0`), or ok (`0`), in that priority order. -/
theorem claim_C5_check_status (gm : ℝ) (u : Cons) (pre0 : ℝ) (p : Prim)
    (h : cons_to_prim gm u pre0 = some (some p)) :
    cons_to_prim_check gm u pre0 =
      some (some (p,
        if u.den < 0 then (1 : ℤ)
        else if u.nrg < 0 then 2
        else if p.pre < 0 then 3
        else 0)) := by
  simp only [cons_to_prim_check, h]

/-- Witness for claim C5: the solve converges on the conserved image of the
test state `primW`, and the checked variant returns the same primitives
with its status code. -/
theorem claim_C5_check_status_witness :
    cons_to_prim (5 / 3) (prim_to_cons (5 / 3) primW) primW.pre =
        some (some primW) ∧
      cons_to_prim_check (5 / 3) (prim_to_cons (5 / 3) primW) primW.pre =
        some (some (primW,
          if (prim_to_cons (5 / 3) primW).den < 0 then (1 : ℤ)
          else if (prim_to_cons (5 / 3) primW).nrg < 0 then 2
          else if primW.pre < 0 then 3
          else 0)) := by
  have hconv := cons_to_prim_roundtrip (5 / 3) primW (by norm_num [primW])
    (by norm_num [primW]) (by norm_num) (by norm_num [primW])
  exact ⟨hconv, claim_C5_check_status (5 / 3) (prim_to_cons (5 / 3) primW)
    primW.pre primW hconv⟩

/-! ## Claim C2: termination and contract of the Newton pressure solve -/

/-- If pass `k0 ≤ 50` is the first pass meeting the residual tolerance, the
loop started at any earlier pass `j` (with its fuel budget `51 - j`)
returns the primitives recovered on pass `k0`. -/
theorem c2pLoop_reaches (gm : ℝ) (u : Cons) (pre0 : ℝ) (k0 : ℕ)
    (hk50 : k0 ≤ 50) (hk : |c2pResid gm u pre0 k0| < errorTolerance)
    (hmin : ∀ i, i < k0 → ¬ |c2pResid gm u pre0 i| < errorTolerance) :
    ∀ d j, j + d = k0 →
      c2pLoop gm u (51 - j) j (c2pPre gm u pre0 j) =
        some (some (c2pFinish u (c2pPre gm u pre0 (k0 + 1))
          (c2pPass gm u (c2pPre gm u pre0 k0)).w)) := by
  intro d
  induction d with
  | zero =>
    intro j hj
    have hj0 : j = k0 := by omega
    subst hj0
    have h51 : 51 - j = (50 - j) + 1 := by omega
    rw [h51]
    simp only [c2pLoop]
    have hk' : |(c2pPass gm u (c2pPre gm u pre0 j)).f| < errorTolerance := hk
    rw [if_pos hk']
    rfl
  | succ d ih =>
    intro j hj
    have hjlt : j < k0 := by omega
    have h51 : 51 - j = (50 - j) + 1 := by omega
    rw [h51]
    simp only [c2pLoop]
    have hmin' : ¬ |(c2pPass gm u (c2pPre gm u pre0 j)).f| < errorTolerance :=
      hmin j hjlt
    rw [if_neg hmin', if_neg (by omega : ¬ j = 50)]
    have hnext : (c2pPass gm u (c2pPre gm u pre0 j)).preNext =
        c2pPre gm u pre0 (j + 1) := rfl
    rw [hnext, show 50 - j = 51 - (j + 1) by omega]
    exact ih (j + 1) (by omega)

/-- If no pass within the iteration budget meets the residual tolerance,
the loop reaches the pass with `iteration = 50` and aborts (`exit(1)`). -/
theorem c2pLoop_aborts (gm : ℝ) (u : Cons) (pre0 : ℝ)
    (hall : ∀ k, k ≤ 50 → ¬ |c2pResid gm u pre0 k| < errorTolerance) :
    ∀ d j, j + d = 50 →
      c2pLoop gm u (51 - j) j (c2pPre gm u pre0 j) = some none := by
  intro d
  induction d with
  | zero =>
    intro j hj
    have hj0 : j = 50 := by omega
    subst hj0
    rw [show 51 - 50 = 0 + 1 from rfl]
    simp only [c2pLoop]
    have h50 : ¬ |(c2pPass gm u (c2pPre gm u pre0 50)).f| < errorTolerance :=
      hall 50 le_rfl
    rw [if_neg h50]
    simp
  | succ d ih =>
    intro j hj
    have hjlt : j < 50 := by omega
    have h51 : 51 - j = (50 - j) + 1 := by omega
    rw [h51]
    simp only [c2pLoop]
    have hj' : ¬ |(c2pPass gm u (c2pPre gm u pre0 j)).f| < errorTolerance :=
      hall j (by omega)
    rw [if_neg hj', if_neg (by omega : ¬ j = 50)]
    have hnext : (c2pPass gm u (c2pPre gm u pre0 j)).preNext =
        c2pPre gm u pre0 (j + 1) := rfl
    rw [hnext, show 50 - j = 51 - (j + 1) by omega]
    exact ih (j + 1) (by omega)

/-- Claim C2: for every conserved input (and initial pressure guess, read
from the output buffer) the Newton iteration of `cons_to_prim` terminates
within its fuel budget (the result is `some _`, never the fuel-exhaustion
artifact `none`), and it equals the contract `c2pSpec`: the update
`pre -= f/g` is applied each pass, the primitives of the *first* pass with
`|f| < 1e-12` are returned, and if the passes at `iteration = 0..50` all
fail the criterion the run is aborted (`some none`, the `exit(1)` path)
rather than looping further or returning a value. -/
theorem claim_C2_newton_contract (gm : ℝ) (u : Cons) (pre0 : ℝ) :
    cons_to_prim gm u pre0 = some (c2pSpec gm u pre0) := by
  rw [cons_to_prim, c2pSpec]
  split
  next hcv =>
    obtain ⟨hk50, hkres⟩ := Nat.find_spec hcv
    have hmin : ∀ i, i < Nat.find hcv →
        ¬ |c2pResid gm u pre0 i| < errorTolerance := by
      intro i hi hres
      exact Nat.find_min hcv hi ⟨by omega, hres⟩
    have h := c2pLoop_reaches gm u pre0 (Nat.find hcv) hk50 hkres hmin
      (Nat.find hcv) 0 (by omega)
    simpa [c2pPre] using h
  next hcv =>
    have hall : ∀ k, k ≤ 50 → ¬ |c2pResid gm u pre0 k| < errorTolerance := by
      intro k hk hres
      exact hcv ⟨k, hk, hres⟩
    have h := c2pLoop_aborts gm u pre0 hall 50 0 (by omega)
    simpa [c2pPre] using h

/-- Witness for claim C3 at `Γ = 5/3`, the state `primW`, direction 1. -/
theorem claim_C3_riemann_hlle_consistency_witness :
    (0 < primW.rho ∧ 0 < primW.pre ∧ (1 : ℝ) < 5 / 3 ∧ (5 / 3 : ℝ) ≤ 2) ∧
      riemann_hlle (5 / 3) primW primW 1 =
        prim_and_cons_to_flux primW (prim_to_cons (5 / 3) primW) 1 :=
  ⟨⟨by norm_num [primW], by norm_num [primW], by norm_num, by norm_num⟩,
    claim_C3_riemann_hlle_consistency (5 / 3) primW 1 (by norm_num [primW])
      (by norm_num [primW]) (by norm_num) (by norm_num)⟩

end Sailfish
